import Mathlib

/-!
# Verification of `src/sync_folders.py`

Shallow embedding of the folder-synchronisation program.  The filesystem is
modelled as a finite tree; a directory holds an ordered association list of
named entries (the order models the order in which `os.listdir` / `os.walk`
enumerate a directory).  A file carries its content (a `String` standing for
the byte stream) and a modification time.

`calculate_md5` only ever feeds file contents into a digest and compares the
resulting digests for equality, so the hash is abstracted as an arbitrary
function `md5 : String → String` supplied as a parameter to every operation.

Pythonic behaviour that the embedding mirrors:
* `os.walk(root)` yields nothing when `root` does not exist or is not a
  directory (the `scandir` error is swallowed because `onerror` is `None`);
* `os.walk` is top-down in `synchronize_folders`'s first loop (a directory is
  processed before its subdirectories) and bottom-up (`topdown=False`) in the
  cleanup loop;
* `os.listdir` returns *all* entries of a directory, files and
  subdirectories alike;
* `os.remove` raises `IsADirectoryError` when applied to a directory,
  `calculate_md5` (via `open(..., "rb")`) raises `IsADirectoryError` when
  applied to a directory, and `os.listdir` raises `NotADirectoryError` when
  applied to a file; a raised exception propagates out of
  `synchronize_folders` at once (there is no `try`/`except` inside it).

Relative paths are lists of path segments; `[]` is the root itself (the
`rel_path = "."` case of the code).
-/

/-- A filesystem tree.  `dir` holds the ordered listing of a directory. -/
inductive FSTree where
  | file (content : String) (mtime : Nat)
  | dir (entries : List (String × FSTree))

/-- The entry list of a directory. -/
abbrev Entries := List (String × FSTree)

/-- A relative path, as a list of segments (root = `[]`). -/
abbrev FPath := List String

/-- One logged action of `synchronize_folders` (a `logger.info` line). -/
inductive Event where
  | createDir (p : FPath)
  | copyFile (p : FPath)
  | removeFile (p : FPath)
  | removeDir (p : FPath)
deriving Repr, DecidableEq

/-- An `OSError` that escapes `synchronize_folders` (the code has no
`try`/`except`, so the first such error aborts the pass). -/
inductive Err where
  /-- `IsADirectoryError` from `calculate_md5(replica_file)` when the replica
  entry with a source file's name is a directory (line 38). -/
  | isADirMd5 (p : FPath)
  /-- `IsADirectoryError` from `os.remove(replica_file)` when the pruning loop
  hits a directory entry (line 46). -/
  | isADirRemove (p : FPath)
  /-- `NotADirectoryError` from `os.listdir(replica_root)` when the replica
  path is a file (line 43). -/
  | notADirListing (p : FPath)
  /-- `NotADirectoryError` from `shutil.copy2` when the replica directory path
  is a file (line 39). -/
  | notADirCopy (p : FPath)
deriving Repr, DecidableEq

/-- Find the entry named `n` in a directory listing. -/
def findEntry (n : String) (es : Entries) : Option FSTree :=
  match es.find? (fun e => e.1 == n) with
  | some e => some e.2
  | none => none

/-- Write entry `n ↦ t`: overwrite the first entry named `n` in place, or
append a new entry at the end of the listing. -/
def setEntry (n : String) (t : FSTree) : Entries → Entries
  | [] => [(n, t)]
  | (n', t') :: rest =>
    if n' == n then (n', t) :: rest else (n', t') :: setEntry n t rest

/-- The file entries of a directory listing (name, content, mtime), in
listing order: the `files` component of an `os.walk` tuple. -/
def filesOf (es : Entries) : List (String × String × Nat) :=
  es.filterMap (fun e => match e.2 with
    | .file c m => some (e.1, c, m)
    | .dir _ => none)

/-- The file names of a directory listing, in listing order. -/
def fileNames (es : Entries) : List String :=
  es.filterMap (fun e => match e.2 with
    | .file _ _ => some e.1
    | .dir _ => none)

/-- Follow a relative path down a tree. -/
def lookup : FSTree → FPath → Option FSTree
  | t, [] => some t
  | .file _ _, _ :: _ => none
  | .dir es, n :: p =>
    match findEntry n es with
    | some t => lookup t p
    | none => none

/-- The file (content, mtime) found at a relative path, if any. -/
def fileAt (t : FSTree) (p : FPath) : Option (String × Nat) :=
  match lookup t p with
  | some (.file c m) => some (c, m)
  | _ => none

/-- Is there a directory at this relative path? -/
def dirAt (t : FSTree) (p : FPath) : Bool :=
  match lookup t p with
  | some (.dir _) => true
  | _ => false

/-- `fileAt` lifted to a possibly-missing root. -/
def fileAtO (o : Option FSTree) (p : FPath) : Option (String × Nat) :=
  match o with
  | some t => fileAt t p
  | none => none

/-- `dirAt` lifted to a possibly-missing root. -/
def dirAtO (o : Option FSTree) (p : FPath) : Bool :=
  match o with
  | some t => dirAt t p
  | none => false

/-- Does the listing of a directory contain at least one file, at any depth? -/
def hasFileE : Entries → Bool
  | [] => false
  | (_, .file _ _) :: _ => true
  | (_, .dir sub) :: rest => hasFileE sub || hasFileE rest

/-- Does the subtree contain at least one file (a file node counts)? -/
def hasFileB : FSTree → Bool
  | .file _ _ => true
  | .dir es => hasFileE es

/-- Is there a node at `p` whose subtree contains a file? -/
def hasFileBelowAt (t : FSTree) (p : FPath) : Bool :=
  match lookup t p with
  | some s => hasFileB s
  | none => false

/-- `hasFileBelowAt` lifted to a possibly-missing root. -/
def hasFileBelowAtO (o : Option FSTree) (p : FPath) : Bool :=
  match o with
  | some t => hasFileBelowAt t p
  | none => false

/-- Well-formedness of a listing: sibling names are distinct (as on a real
filesystem) at every level. -/
def wfE : Entries → Bool
  | [] => true
  | (n, .file _ _) :: rest => !(rest.any (fun e => e.1 == n)) && wfE rest
  | (n, .dir sub) :: rest => !(rest.any (fun e => e.1 == n)) && wfE sub && wfE rest

/-- Well-formedness of a tree. -/
def wfT : FSTree → Bool
  | .file _ _ => true
  | .dir es => wfE es

/-- Well-formedness of a possibly-missing tree. -/
def wfO : Option FSTree → Bool
  | none => true
  | some t => wfT t

/-- The file-copy loop of `synchronize_folders` (lines 33-40): for each source
file, copy it over the replica unless the replica file exists and the digests
agree.  `shutil.copy2` copies content and mtime.  If the replica entry is a
directory, `calculate_md5(replica_file)` raises `IsADirectoryError`. -/
def copyStep (md5 : String → String) (path : FPath) :
    List (String × String × Nat) → Entries → Entries × List Event × Option Err
  | [], res => (res, [], none)
  | (n, c, m) :: rest, res =>
    match findEntry n res with
    | some (.dir _) => (res, [], some (.isADirMd5 (path ++ [n])))
    | some (.file c' _) =>
      if md5 c = md5 c' then copyStep md5 path rest res
      else
        let out := copyStep md5 path rest (setEntry n (.file c m) res)
        (out.1, .copyFile (path ++ [n]) :: out.2.1, out.2.2)
    | none =>
      let out := copyStep md5 path rest (setEntry n (.file c m) res)
      (out.1, .copyFile (path ++ [n]) :: out.2.1, out.2.2)

/-- The pruning loop of `synchronize_folders` (lines 43-47): every entry of the
replica directory whose name is not among the source *file* names is passed to
`os.remove`; on a directory entry this raises `IsADirectoryError` and the rest
of the listing is left untouched. -/
def pruneStep (path : FPath) (sNames : List String) : Entries → Entries × List Event × Option Err
  | [] => ([], [], none)
  | (n, t) :: rest =>
    if sNames.contains n then
      let out := pruneStep path sNames rest
      ((n, t) :: out.1, out.2.1, out.2.2)
    else
      match t with
      | .file _ _ =>
        let out := pruneStep path sNames rest
        (out.1, .removeFile (path ++ [n]) :: out.2.1, out.2.2)
      | .dir _ => ((n, t) :: rest, [], some (.isADirRemove (path ++ [n])))

/-- Name of the first source file of a listing, if any (the first file the
copy loop would touch). -/
def firstFileName (es : Entries) : Option String :=
  match filesOf es with
  | [] => none
  | (n, _, _) :: _ => some n

mutual

/-- One visited directory of the top-down `os.walk(source)` loop
(lines 21-47), together with the recursive visits of its subdirectories:
create the replica directory when missing (lines 28-30), run the copy loop,
run the pruning loop, then visit the source subdirectories in listing order.
`ses` is the source directory's listing, `repl` the replica tree currently at
the corresponding path (`none` when the path does not exist).  Returns the new
replica tree at that path, the logged events, and the first uncaught
`OSError` (which aborts the whole pass). -/
def downDir (md5 : String → String) (path : FPath) (ses : Entries) (repl : Option FSTree) :
    FSTree × List Event × Option Err :=
  let created : List Event :=
    match repl with
    | none => [.createDir path]
    | some _ => []
  match repl.getD (.dir []) with
  | .file c m =>
    (.file c m, [],
      some (match firstFileName ses with
            | some n => .notADirCopy (path ++ [n])
            | none => .notADirListing path))
  | .dir res0 =>
    let cp := copyStep md5 path (filesOf ses) res0
    match cp.2.2 with
    | some e => (.dir cp.1, created ++ cp.2.1, some e)
    | none =>
      let pr := pruneStep path (fileNames ses) cp.1
      match pr.2.2 with
      | some e => (.dir pr.1, created ++ cp.2.1 ++ pr.2.1, some e)
      | none =>
        let ch := downChildren md5 path ses pr.1
        (.dir ch.1, created ++ cp.2.1 ++ pr.2.1 ++ ch.2.1, ch.2.2)
termination_by 2 * sizeOf ses + 1

/-- The recursive visits of the source subdirectories of one directory, in
listing order (the recursion of `os.walk`); `res` is the listing of the
replica directory after copy and prune.  An error from one child aborts the
remaining visits (the exception propagates). -/
def downChildren (md5 : String → String) (path : FPath) (ses : Entries) (res : Entries) :
    Entries × List Event × Option Err :=
  match ses with
  | [] => (res, [], none)
  | (_, .file _ _) :: rest => downChildren md5 path rest res
  | (n, .dir sub) :: rest =>
    let d := downDir md5 (path ++ [n]) sub (findEntry n res)
    let res' := setEntry n d.1 res
    match d.2.2 with
    | some e => (res', d.2.1, some e)
    | none =>
      let out := downChildren md5 path rest res'
      (out.1, d.2.1 ++ out.2.1, out.2.2)
termination_by 2 * sizeOf ses

end

/-- The bottom-up cleanup loop of `synchronize_folders` (lines 50-55) on the
listing of one directory.  `os.walk(replica, topdown=False)` yields the
subdirectories' tuples (deepest first) before the directory's own tuple, at
which point each subdirectory that is now empty is removed.  Returns the new
listing, the events of the subtree visits, and the remove-dir events of this
directory's own tuple (which are logged after all subtree events). -/
def sweepE (p : FPath) : Entries → Entries × List Event × List Event
  | [] => ([], [], [])
  | (n, .file c m) :: rest =>
    let out := sweepE p rest
    ((n, .file c m) :: out.1, out.2.1, out.2.2)
  | (n, .dir sub) :: rest =>
    let s := sweepE (p ++ [n]) sub
    let out := sweepE p rest
    match s.1 with
    | [] => (out.1, (s.2.1 ++ s.2.2) ++ out.2.1, .removeDir (p ++ [n]) :: out.2.2)
    | es' => ((n, .dir es') :: out.1, (s.2.1 ++ s.2.2) ++ out.2.1, out.2.2)

/-- The bottom-up cleanup loop on a whole tree (`os.walk` yields nothing on a
missing or non-directory root, and never removes the walk root itself). -/
def sweepT (p : FPath) : FSTree → FSTree × List Event
  | .file c m => (.file c m, [])
  | .dir es =>
    let s := sweepE p es
    (.dir s.1, s.2.1 ++ s.2.2)

/-- The cleanup loop at the replica root. -/
def sweepTop : Option FSTree → Option FSTree × List Event
  | none => (none, [])
  | some t =>
    let s := sweepT [] t
    (some s.1, s.2)

/-- `synchronize_folders(source, replica, logger)` (lines 18-55): the top-down
mirroring walk of the source followed by the bottom-up cleanup walk of the
replica.  `none` models a path that does not exist.  Returns the new replica
tree, the logged events in order, and the uncaught error if one was raised
(in which case the cleanup loop never runs). -/
def synchronize_folders (md5 : String → String) (source replica : Option FSTree) :
    Option FSTree × List Event × Option Err :=
  match source with
  | none => -- os.walk(source) yields nothing; only the cleanup loop acts
    let s := sweepTop replica
    (s.1, s.2, none)
  | some (.file _ _) => -- os.walk on a non-directory also yields nothing
    let s := sweepTop replica
    (s.1, s.2, none)
  | some (.dir ses) =>
    let d := downDir md5 [] ses replica
    match d.2.2 with
    | some e => (some d.1, d.2.1, some e)
    | none =>
      let s := sweepTop (some d.1)
      (s.1, d.2.1 ++ s.2, none)

/-! ## Infrastructure: induction over listings -/

/-- Structural induction over directory listings, descending both into the
tail of a listing and into subdirectory listings. -/
def entriesRec (motive : Entries → Prop)
    (hnil : motive [])
    (hfile : ∀ n c m rest, motive rest → motive ((n, FSTree.file c m) :: rest))
    (hdir : ∀ n sub rest, motive sub → motive rest → motive ((n, FSTree.dir sub) :: rest)) :
    ∀ es, motive es
  | [] => hnil
  | (n, .file c m) :: rest => hfile n c m rest (entriesRec motive hnil hfile hdir rest)
  | (n, .dir sub) :: rest =>
    hdir n sub rest (entriesRec motive hnil hfile hdir sub) (entriesRec motive hnil hfile hdir rest)
termination_by es => sizeOf es

/-! ## Basic lemmas about listings and paths -/

theorem findEntry_nil (n : String) : findEntry n [] = none := rfl

theorem findEntry_cons (n n' : String) (t : FSTree) (rest : Entries) :
    findEntry n ((n', t) :: rest) = if n' = n then some t else findEntry n rest := by
  by_cases h : n' = n <;> simp [findEntry, List.find?_cons, h]

theorem mem_of_findEntry {n : String} {es : Entries} {t : FSTree}
    (h : findEntry n es = some t) : (n, t) ∈ es := by
  induction es with
  | nil => simp [findEntry] at h
  | cons e rest ih =>
    obtain ⟨n', t'⟩ := e
    rw [findEntry_cons] at h
    by_cases hn : n' = n
    · simp [hn] at h
      subst hn h
      exact List.mem_cons_self _ _
    · simp [hn] at h
      exact List.mem_cons_of_mem _ (ih h)

theorem findEntry_none_iff {n : String} {es : Entries} :
    findEntry n es = none ↔ n ∉ es.map Prod.fst := by
  induction es with
  | nil => simp [findEntry]
  | cons e rest ih =>
    obtain ⟨n', t'⟩ := e
    rw [findEntry_cons]
    by_cases hn : n' = n
    · simp [hn]
    · simp [hn, ih, Ne.symm hn]

theorem findEntry_setEntry_self (n : String) (t : FSTree) (es : Entries) :
    findEntry n (setEntry n t es) = some t := by
  induction es with
  | nil => simp [setEntry, findEntry_cons]
  | cons e rest ih =>
    obtain ⟨n', t'⟩ := e
    by_cases hn : n' = n <;> simp [setEntry, hn, findEntry_cons, ih]

theorem findEntry_setEntry_other {n n' : String} (hne : n' ≠ n) (t : FSTree) (es : Entries) :
    findEntry n' (setEntry n t es) = findEntry n' es := by
  have hne' : n ≠ n' := Ne.symm hne
  induction es with
  | nil => simp [setEntry, findEntry_cons, findEntry_nil, hne']
  | cons e rest ih =>
    obtain ⟨n'', t''⟩ := e
    by_cases hn : n'' = n
    · subst hn
      simp [setEntry, findEntry_cons, hne']
    · simp [setEntry, hn, findEntry_cons, ih]

theorem map_fst_setEntry (n : String) (t : FSTree) (es : Entries) :
    (setEntry n t es).map Prod.fst =
      if n ∈ es.map Prod.fst then es.map Prod.fst else es.map Prod.fst ++ [n] := by
  induction es with
  | nil => simp [setEntry]
  | cons e rest ih =>
    obtain ⟨n', t'⟩ := e
    by_cases hn : n' = n
    · subst hn
      simp [setEntry]
    · simp only [setEntry, beq_iff_eq, hn, if_false, List.map_cons, ih]
      by_cases hmem : n ∈ rest.map Prod.fst <;>
        simp [hmem, Ne.symm hn]

theorem any_name_eq_false_iff {es : Entries} {n : String} :
    (es.any (fun e => e.1 == n)) = false ↔ n ∉ es.map Prod.fst := by
  induction es with
  | nil => simp
  | cons e rest ih =>
    obtain ⟨a, b⟩ := e
    simp only [List.any_cons, Bool.or_eq_false_iff, List.map_cons, List.mem_cons,
      beq_eq_false_iff_ne, ne_eq, ih]
    constructor
    · rintro ⟨h1, h2⟩ h3
      rcases h3 with h3 | h3
      · exact h1 h3.symm
      · exact h2 h3
    · intro h
      exact ⟨fun hh => h (Or.inl hh.symm), fun hh => h (Or.inr hh)⟩

theorem wfE_cons (n : String) (t : FSTree) (rest : Entries) :
    wfE ((n, t) :: rest) = (!(rest.any (fun e => e.1 == n)) && wfT t && wfE rest) := by
  cases t <;> simp [wfE, wfT, Bool.and_assoc]

theorem wf_names_nodup {es : Entries} (h : wfE es = true) : (es.map Prod.fst).Nodup := by
  induction es with
  | nil => simp
  | cons e rest ih =>
    obtain ⟨n, t⟩ := e
    rw [wfE_cons] at h
    simp only [Bool.and_eq_true, Bool.not_eq_true'] at h
    refine List.nodup_cons.mpr ⟨any_name_eq_false_iff.mp h.1.1, ih h.2⟩

theorem wfE_mem_wfT {es : Entries} {n : String} {t : FSTree}
    (h : wfE es = true) (hm : (n, t) ∈ es) : wfT t = true := by
  induction es with
  | nil => cases hm
  | cons e rest ih =>
    obtain ⟨n', t'⟩ := e
    rw [wfE_cons] at h
    simp only [Bool.and_eq_true] at h
    rcases List.mem_cons.mp hm with heq | hmem
    · cases heq
      exact h.1.2
    · exact ih h.2 hmem

theorem wfT_lookup {t s : FSTree} {p : FPath}
    (hwf : wfT t = true) (h : lookup t p = some s) : wfT s = true := by
  induction p generalizing t with
  | nil =>
    simp [lookup] at h
    exact h ▸ hwf
  | cons n p ih =>
    cases t with
    | file c m => simp [lookup] at h
    | dir es =>
      simp only [lookup] at h
      cases hfe : findEntry n es with
      | none => rw [hfe] at h; cases h
      | some t' =>
        rw [hfe] at h
        exact ih (wfE_mem_wfT hwf (mem_of_findEntry hfe)) h

theorem wfE_filter {es : Entries} (f : String × FSTree → Bool) (h : wfE es = true) :
    wfE (es.filter f) = true := by
  induction es with
  | nil => simpa using h
  | cons e rest ih =>
    obtain ⟨n, t⟩ := e
    rw [wfE_cons] at h
    simp only [Bool.and_eq_true, Bool.not_eq_true'] at h
    by_cases hf : f (n, t)
    · rw [List.filter_cons_of_pos hf, wfE_cons]
      simp only [Bool.and_eq_true, Bool.not_eq_true']
      refine ⟨⟨?_, h.1.2⟩, ih h.2⟩
      rw [any_name_eq_false_iff] at h ⊢
      intro hmem
      rcases List.mem_map.mp hmem with ⟨e', he', hfst⟩
      exact h.1.1 (List.mem_map.mpr ⟨e', List.mem_of_mem_filter he', hfst⟩)
    · rw [List.filter_cons_of_neg hf]
      exact ih h.2

theorem wfE_setEntry {es : Entries} {t : FSTree} (n : String)
    (hes : wfE es = true) (ht : wfT t = true) : wfE (setEntry n t es) = true := by
  induction es with
  | nil => simp [setEntry, wfE_cons, wfE, ht]
  | cons e rest ih =>
    obtain ⟨n', t'⟩ := e
    rw [wfE_cons] at hes
    simp only [Bool.and_eq_true, Bool.not_eq_true'] at hes
    by_cases hn : n' = n
    · subst hn
      simp only [setEntry, beq_self_eq_true, if_true]
      rw [wfE_cons]
      simp [hes.1.1, hes.2, ht]
    · simp only [setEntry, beq_iff_eq, hn, if_false]
      rw [wfE_cons]
      simp only [Bool.and_eq_true, Bool.not_eq_true']
      refine ⟨⟨?_, hes.1.2⟩, ih hes.2⟩
      rw [any_name_eq_false_iff, map_fst_setEntry]
      have h1 := any_name_eq_false_iff.mp hes.1.1
      by_cases hmem : n ∈ rest.map Prod.fst
      · simpa [hmem] using h1
      · simp [hmem, h1, hn]

theorem lookup_append (p q : FPath) (t : FSTree) :
    lookup t (p ++ q) = (lookup t p).bind (fun s => lookup s q) := by
  induction p generalizing t with
  | nil => simp [lookup]
  | cons n p ih =>
    cases t with
    | file c m => simp [lookup]
    | dir es =>
      simp only [List.cons_append, lookup]
      cases findEntry n es with
      | none => simp
      | some t' => simpa using ih t'

/-! ## Lemmas about `hasFileB` -/

theorem hasFileE_of_mem {es : Entries} {n : String} {t : FSTree}
    (hm : (n, t) ∈ es) (ht : hasFileB t = true) : hasFileE es = true := by
  induction es with
  | nil => cases hm
  | cons e rest ih =>
    obtain ⟨n', t'⟩ := e
    rcases List.mem_cons.mp hm with heq | hmem
    · cases heq
      cases t with
      | file c m => simp [hasFileE]
      | dir sub => simpa [hasFileE, hasFileB] using Or.inl ht
    · cases t' with
      | file c m => simp [hasFileE]
      | dir sub => simpa [hasFileE] using Or.inr (ih hmem)

theorem hasFileB_of_lookup {t s : FSTree} {p : FPath}
    (h : lookup t p = some s) (hs : hasFileB s = true) : hasFileB t = true := by
  induction p generalizing t with
  | nil =>
    simp [lookup] at h
    exact h ▸ hs
  | cons n p ih =>
    cases t with
    | file c m => simp [lookup] at h
    | dir es =>
      simp only [lookup] at h
      cases hfe : findEntry n es with
      | none => rw [hfe] at h; cases h
      | some t' =>
        rw [hfe] at h
        exact hasFileE_of_mem (mem_of_findEntry hfe) (ih h)

theorem hasFileE_iff {es : Entries} (hwf : wfE es = true) :
    hasFileE es = true ↔ ∃ n p, (fileAt (.dir es) (n :: p)).isSome = true := by
  induction es using entriesRec with
  | hnil => simp [hasFileE, fileAt, lookup, findEntry_nil]
  | hfile n₀ c m rest ih =>
    simp only [hasFileE, true_iff]
    exact ⟨n₀, [], by simp [fileAt, lookup, findEntry_cons]⟩
  | hdir n₀ sub rest ihsub ihrest =>
    rw [wfE_cons] at hwf
    simp only [Bool.and_eq_true, Bool.not_eq_true'] at hwf
    have hsub := ihsub hwf.1.2
    have hrest := ihrest hwf.2
    have hn₀ : n₀ ∉ rest.map Prod.fst := any_name_eq_false_iff.mp hwf.1.1
    simp only [hasFileE, Bool.or_eq_true]
    constructor
    · rintro (h | h)
      · obtain ⟨n', p', hp⟩ := hsub.mp h
        refine ⟨n₀, n' :: p', ?_⟩
        simpa [fileAt, lookup, findEntry_cons] using hp
      · obtain ⟨n', p', hp⟩ := hrest.mp h
        have hne : n₀ ≠ n' := by
          intro hcontra
          subst hcontra
          rcases hfp : findEntry n₀ rest with _ | t'
          · simp [fileAt, lookup, hfp] at hp
          · exact hn₀ (List.mem_map.mpr ⟨(n₀, t'), mem_of_findEntry hfp, rfl⟩)
        refine ⟨n', p', ?_⟩
        simpa [fileAt, lookup, findEntry_cons, hne] using hp
    · rintro ⟨n', p', hp⟩
      by_cases hne : n₀ = n'
      · subst hne
        simp only [fileAt, lookup, findEntry_cons, if_true] at hp
        cases p' with
        | nil => simp [fileAt, lookup] at hp
        | cons n'' p'' =>
          exact Or.inl (hsub.mpr ⟨n'', p'', by simpa [fileAt] using hp⟩)
      · refine Or.inr (hrest.mpr ⟨n', p', ?_⟩)
        simpa [fileAt, lookup, findEntry_cons, hne] using hp

theorem hasFileB_iff {t : FSTree} (hwf : wfT t = true) :
    hasFileB t = true ↔ ∃ p, (fileAt t p).isSome = true := by
  cases t with
  | file c m =>
    simp only [hasFileB, true_iff]
    exact ⟨[], by simp [fileAt, lookup]⟩
  | dir es =>
    rw [hasFileB, hasFileE_iff hwf]
    constructor
    · rintro ⟨n, p, h⟩
      exact ⟨n :: p, h⟩
    · rintro ⟨p, h⟩
      cases p with
      | nil => simp [fileAt, lookup] at h
      | cons n p' => exact ⟨n, p', h⟩

theorem hasFileBelowAt_iff {t : FSTree} {p : FPath} (hwf : wfT t = true) :
    hasFileBelowAt t p = true ↔ ∃ q, (fileAt t (p ++ q)).isSome = true := by
  have hfa : ∀ q, fileAt t (p ++ q) =
      match lookup t p with
      | some s => fileAt s q
      | none => none := by
    intro q
    rw [fileAt, lookup_append]
    cases lookup t p with
    | none => simp
    | some s => simp [fileAt]
  cases hl : lookup t p with
  | none =>
    simp only [hasFileBelowAt, hl]
    constructor
    · intro h
      cases h
    · rintro ⟨q, hq⟩
      rw [hfa q, hl] at hq
      cases hq
  | some s =>
    simp only [hasFileBelowAt, hl]
    rw [hasFileB_iff (wfT_lookup hwf hl)]
    constructor
    · rintro ⟨q, hq⟩
      exact ⟨q, by rw [hfa q, hl]; exact hq⟩
    · rintro ⟨q, hq⟩
      rw [hfa q, hl] at hq
      exact ⟨q, hq⟩

/-- Two well-formed trees with files at the same positions have files below
the same positions. -/
theorem hasFileBelowAt_congr {t t' : FSTree} {p : FPath}
    (hw : wfT t = true) (hw' : wfT t' = true)
    (h : ∀ q, (fileAt t q).isSome = (fileAt t' q).isSome) :
    hasFileBelowAt t p = hasFileBelowAt t' p := by
  rw [Bool.eq_iff_iff, hasFileBelowAt_iff hw, hasFileBelowAt_iff hw']
  constructor
  · rintro ⟨q, hq⟩
    exact ⟨q, by rw [← h]; exact hq⟩
  · rintro ⟨q, hq⟩
    exact ⟨q, by rw [h]; exact hq⟩

/-! ## Reduction lemmas for path queries -/

theorem fileAt_dir_nil (es : Entries) : fileAt (.dir es) [] = none := rfl

theorem dirAt_dir_nil (es : Entries) : dirAt (.dir es) [] = true := rfl

theorem fileAt_file_nil (c : String) (m : Nat) : fileAt (.file c m) [] = some (c, m) := rfl

theorem fileAt_file_cons (c : String) (m : Nat) (n : String) (q : FPath) :
    fileAt (.file c m) (n :: q) = none := rfl

theorem dirAt_file (c : String) (m : Nat) (q : FPath) : dirAt (.file c m) q = false := by
  cases q <;> rfl

theorem hasFileBelowAt_dir_nil (es : Entries) :
    hasFileBelowAt (.dir es) [] = hasFileE es := rfl

theorem fileAt_dirCons (n₀ : String) (t : FSTree) (rest : Entries) (n : String) (q : FPath) :
    fileAt (.dir ((n₀, t) :: rest)) (n :: q)
      = if n₀ = n then fileAt t q else fileAt (.dir rest) (n :: q) := by
  by_cases h : n₀ = n <;> simp [fileAt, lookup, findEntry_cons, h]

theorem dirAt_dirCons (n₀ : String) (t : FSTree) (rest : Entries) (n : String) (q : FPath) :
    dirAt (.dir ((n₀, t) :: rest)) (n :: q)
      = if n₀ = n then dirAt t q else dirAt (.dir rest) (n :: q) := by
  by_cases h : n₀ = n <;> simp [dirAt, lookup, findEntry_cons, h]

theorem hasFileBelowAt_dirCons (n₀ : String) (t : FSTree) (rest : Entries) (n : String)
    (q : FPath) :
    hasFileBelowAt (.dir ((n₀, t) :: rest)) (n :: q)
      = if n₀ = n then hasFileBelowAt t q else hasFileBelowAt (.dir rest) (n :: q) := by
  by_cases h : n₀ = n <;> simp [hasFileBelowAt, lookup, findEntry_cons, h]

theorem fileAt_dir_findEntry (es : Entries) (n : String) (q : FPath) :
    fileAt (.dir es) (n :: q)
      = match findEntry n es with
        | some t => fileAt t q
        | none => none := by
  cases h : findEntry n es <;> simp [fileAt, lookup, h]

theorem dirAt_dir_findEntry (es : Entries) (n : String) (q : FPath) :
    dirAt (.dir es) (n :: q)
      = match findEntry n es with
        | some t => dirAt t q
        | none => false := by
  cases h : findEntry n es <;> simp [dirAt, lookup, h]

theorem fileAt_dir_none {es : Entries} {n : String} (h : findEntry n es = none) (q : FPath) :
    fileAt (.dir es) (n :: q) = none := by
  simp [fileAt_dir_findEntry, h]

theorem dirAt_dir_none {es : Entries} {n : String} (h : findEntry n es = none) (q : FPath) :
    dirAt (.dir es) (n :: q) = false := by
  simp [dirAt_dir_findEntry, h]

theorem hasFileB_of_hasFileBelowAt {t : FSTree} {r : FPath}
    (h : hasFileBelowAt t r = true) : hasFileB t = true := by
  rw [hasFileBelowAt] at h
  cases hl : lookup t r with
  | none => rw [hl] at h; cases h
  | some s =>
    rw [hl] at h
    exact hasFileB_of_lookup hl h

theorem fileAt_none_of_hasFileE_false {sub : Entries} (hwf : wfE sub = true)
    (h : hasFileE sub = false) (n : String) (q : FPath) :
    fileAt (.dir sub) (n :: q) = none := by
  cases hfa : fileAt (.dir sub) (n :: q) with
  | none => rfl
  | some v =>
    rw [(hasFileE_iff hwf).mpr ⟨n, q, by rw [hfa]; rfl⟩] at h
    cases h

/-! ## Characterisation of the bottom-up cleanup loop -/

/-- Everything the cleanup loop does to a directory listing: files are
untouched, a subdirectory survives at a path iff its subtree contains a file,
an empty result means the listing had no file anywhere below, names are never
invented, and every logged event is a remove-dir event. -/
theorem sweepE_char (es : Entries) (hwf : wfE es = true) (p : FPath) :
    (∀ n q, fileAt (.dir (sweepE p es).1) (n :: q) = fileAt (.dir es) (n :: q)) ∧
    (∀ n q, dirAt (.dir (sweepE p es).1) (n :: q)
      = (dirAt (.dir es) (n :: q) && hasFileBelowAt (.dir es) (n :: q))) ∧
    ((sweepE p es).1 = [] ↔ hasFileE es = false) ∧
    ((sweepE p es).1.map Prod.fst ⊆ es.map Prod.fst) ∧
    (∀ ev ∈ (sweepE p es).2.1 ++ (sweepE p es).2.2, ∃ r, ev = Event.removeDir r) := by
  induction es using entriesRec generalizing p with
  | hnil =>
    have h0 : sweepE p [] = ([], [], []) := by simp [sweepE]
    rw [h0]
    refine ⟨fun n q => rfl, ?_, by simp [hasFileE], by simp, by simp⟩
    intro n q
    simp [dirAt_dir_findEntry, findEntry_nil]
  | hfile n₀ c m rest ih =>
    rw [wfE_cons] at hwf
    simp only [Bool.and_eq_true, Bool.not_eq_true'] at hwf
    obtain ⟨ih1, ih2, ih3, ih4, ih5⟩ := ih hwf.2 p
    refine ⟨?_, ?_, ?_, ?_, ?_⟩
    · intro n q
      by_cases hn : n₀ = n <;>
        simp [sweepE, fileAt_dirCons, hn, ih1 n q]
    · intro n q
      by_cases hn : n₀ = n
      · simp [sweepE, fileAt_dirCons, dirAt_dirCons, hasFileBelowAt_dirCons, hn, dirAt_file]
      · simp [sweepE, dirAt_dirCons, hasFileBelowAt_dirCons, hn, ih2 n q]
    · simp [sweepE, hasFileE]
    · intro x hx
      simp only [sweepE, List.map_cons, List.mem_cons] at hx ⊢
      rcases hx with hx | hx
      · exact Or.inl hx
      · exact Or.inr (ih4 hx)
    · intro ev hev
      simp only [sweepE] at hev
      exact ih5 ev hev
  | hdir n₀ sub rest ihsub ihrest =>
    rw [wfE_cons] at hwf
    simp only [Bool.and_eq_true, Bool.not_eq_true'] at hwf
    have hn₀ : n₀ ∉ rest.map Prod.fst := any_name_eq_false_iff.mp hwf.1.1
    obtain ⟨is1, is2, is3, is4, is5⟩ := ihsub hwf.1.2 (p ++ [n₀])
    obtain ⟨ir1, ir2, ir3, ir4, ir5⟩ := ihrest hwf.2 p
    cases hs : (sweepE (p ++ [n₀]) sub).1 with
    | nil =>
      -- the subdirectory became empty and is removed
      have hnofile : hasFileE sub = false := is3.mp hs
      have hout : sweepE p ((n₀, FSTree.dir sub) :: rest)
          = ((sweepE p rest).1,
             ((sweepE (p ++ [n₀]) sub).2.1 ++ (sweepE (p ++ [n₀]) sub).2.2)
               ++ (sweepE p rest).2.1,
             Event.removeDir (p ++ [n₀]) :: (sweepE p rest).2.2) := by
        simp [sweepE, hs]
      have hfind : findEntry n₀ (sweepE p rest).1 = none := by
        rw [findEntry_none_iff]
        intro hmem
        exact hn₀ (ir4 hmem)
      refine ⟨?_, ?_, ?_, ?_, ?_⟩
      · intro n q
        rw [hout]
        by_cases hn : n₀ = n
        · subst hn
          rw [fileAt_dir_none hfind, fileAt_dirCons]
          simp only [if_true]
          cases q with
          | nil => rw [fileAt_dir_nil]
          | cons n' q' => rw [fileAt_none_of_hasFileE_false hwf.1.2 hnofile]
        · rw [fileAt_dirCons]
          simp only [hn, if_false]
          exact ir1 n q
      · intro n q
        rw [hout]
        by_cases hn : n₀ = n
        · subst hn
          rw [dirAt_dir_none hfind, dirAt_dirCons, hasFileBelowAt_dirCons]
          simp only [if_true]
          cases q with
          | nil => simp [dirAt_dir_nil, hasFileBelowAt_dir_nil, hasFileB, hnofile]
          | cons n' q' =>
            rcases hbl : hasFileBelowAt (.dir sub) (n' :: q') with _ | _
            · simp [hbl]
            · exfalso
              have h1 : hasFileB (.dir sub) = true := hasFileB_of_hasFileBelowAt hbl
              rw [show hasFileB (.dir sub) = hasFileE sub from rfl, hnofile] at h1
              cases h1
        · rw [dirAt_dirCons, hasFileBelowAt_dirCons]
          simp only [hn, if_false]
          exact ir2 n q
      · rw [hout]
        simp only [hasFileE, hnofile, Bool.false_or]
        exact ir3
      · rw [hout]
        intro x hx
        simp only [List.map_cons, List.mem_cons]
        exact Or.inr (ir4 hx)
      · rw [hout]
        intro ev hev
        simp only [List.mem_append, List.mem_cons] at hev
        rcases hev with (hev | hev) | (hev | hev)
        · exact is5 ev (List.mem_append.mpr (by tauto))
        · exact ir5 ev (List.mem_append.mpr (Or.inl hev))
        · exact ⟨p ++ [n₀], hev⟩
        · exact ir5 ev (List.mem_append.mpr (Or.inr hev))
    | cons e' es' =>
      -- the subdirectory survives (with its own listing swept)
      have hkept : hasFileE sub = true := by
        rcases hh : hasFileE sub with _ | _
        · rw [is3.mpr hh] at hs; cases hs
        · rfl
      have hout : sweepE p ((n₀, FSTree.dir sub) :: rest)
          = ((n₀, FSTree.dir (e' :: es')) :: (sweepE p rest).1,
             ((sweepE (p ++ [n₀]) sub).2.1 ++ (sweepE (p ++ [n₀]) sub).2.2)
               ++ (sweepE p rest).2.1,
             (sweepE p rest).2.2) := by
        simp [sweepE, hs]
      refine ⟨?_, ?_, ?_, ?_, ?_⟩
      · intro n q
        rw [hout, fileAt_dirCons, fileAt_dirCons]
        by_cases hn : n₀ = n
        · simp only [hn, if_true]
          cases q with
          | nil => rw [fileAt_dir_nil, fileAt_dir_nil]
          | cons n' q' => rw [← hs, is1 n' q']
        · simp only [hn, if_false]
          exact ir1 n q
      · intro n q
        rw [hout, dirAt_dirCons, dirAt_dirCons, hasFileBelowAt_dirCons]
        by_cases hn : n₀ = n
        · simp only [hn, if_true]
          cases q with
          | nil => simp [dirAt_dir_nil, hasFileBelowAt_dir_nil, hasFileB, hkept]
          | cons n' q' => rw [← hs, is2 n' q']
        · simp only [hn, if_false]
          exact ir2 n q
      · rw [hout]
        simp [hasFileE, hkept]
      · rw [hout]
        intro x hx
        simp only [List.map_cons, List.mem_cons] at hx ⊢
        rcases hx with hx | hx
        · exact Or.inl hx
        · exact Or.inr (ir4 hx)
      · rw [hout]
        intro ev hev
        simp only [List.mem_append] at hev
        rcases hev with (hev | hev) | hev
        · exact is5 ev (List.mem_append.mpr (by tauto))
        · exact ir5 ev (List.mem_append.mpr (Or.inl hev))
        · exact ir5 ev (List.mem_append.mpr (Or.inr hev))

/-! ## Lemmas about file listings and names -/

theorem contains_iff_mem {l : List String} {n : String} : l.contains n = true ↔ n ∈ l := by
  simp

theorem fileNames_eq_map (es : Entries) : fileNames es = (filesOf es).map (fun x => x.1) := by
  induction es with
  | nil => rfl
  | cons e rest ih =>
    obtain ⟨n, t⟩ := e
    cases t with
    | file c m =>
      simp only [fileNames, filesOf, List.filterMap_cons, List.map_cons]
      exact congrArg (List.cons n) ih
    | dir sub =>
      simp only [fileNames, filesOf, List.filterMap_cons]
      exact ih

theorem mem_filesOf {es : Entries} {n : String} {c : String} {m : Nat}
    (h : (n, FSTree.file c m) ∈ es) : (n, c, m) ∈ filesOf es := by
  rw [filesOf, List.mem_filterMap]
  exact ⟨(n, .file c m), h, rfl⟩

theorem mem_fileNames_iff {es : Entries} {n : String} :
    n ∈ fileNames es ↔ ∃ c m, (n, FSTree.file c m) ∈ es := by
  rw [fileNames, List.mem_filterMap]
  constructor
  · rintro ⟨⟨n', t⟩, hm, hf⟩
    cases t with
    | file c m =>
      simp only [Option.some_inj] at hf
      exact ⟨c, m, hf ▸ hm⟩
    | dir sub => cases hf
  · rintro ⟨c, m, hm⟩
    exact ⟨(n, .file c m), hm, rfl⟩

theorem fileNames_sublist (es : Entries) : List.Sublist (fileNames es) (es.map Prod.fst) := by
  induction es with
  | nil => simp [fileNames]
  | cons e rest ih =>
    obtain ⟨n, t⟩ := e
    cases t with
    | file c m =>
      simpa [fileNames, List.filterMap_cons] using List.Sublist.cons₂ n ih
    | dir sub =>
      simpa [fileNames, List.filterMap_cons] using List.Sublist.cons n ih

theorem wf_fileNames_nodup {es : Entries} (h : wfE es = true) : (fileNames es).Nodup :=
  (wf_names_nodup h).sublist (fileNames_sublist es)

theorem nodup_fst_inj {es : Entries} {n : String} {a b : FSTree}
    (hnd : (es.map Prod.fst).Nodup) (ha : (n, a) ∈ es) (hb : (n, b) ∈ es) : a = b := by
  induction es with
  | nil => cases ha
  | cons e rest ih =>
    obtain ⟨n₀, t₀⟩ := e
    simp only [List.map_cons, List.nodup_cons] at hnd
    rcases List.mem_cons.mp ha with ha' | ha' <;> rcases List.mem_cons.mp hb with hb' | hb'
    · injection ha' with h1 h2
      injection hb' with h3 h4
      rw [h2, h4]
    · injection ha' with h1 h2
      subst h1
      exact absurd (List.mem_map.mpr ⟨(n, b), hb', rfl⟩) hnd.1
    · injection hb' with h1 h2
      subst h1
      exact absurd (List.mem_map.mpr ⟨(n, a), ha', rfl⟩) hnd.1
    · exact ih hnd.2 ha' hb'

theorem mem_dir_not_fileName {es : Entries} {n : String} {sub : Entries}
    (hwf : wfE es = true) (hm : (n, FSTree.dir sub) ∈ es) : n ∉ fileNames es := by
  intro hf
  obtain ⟨c, m, hm'⟩ := mem_fileNames_iff.mp hf
  cases nodup_fst_inj (wf_names_nodup hwf) hm hm'

theorem findEntry_of_mem {es : Entries} {n : String} {t : FSTree}
    (hnd : (es.map Prod.fst).Nodup) (hm : (n, t) ∈ es) : findEntry n es = some t := by
  induction es with
  | nil => cases hm
  | cons e rest ih =>
    obtain ⟨n₀, t₀⟩ := e
    simp only [List.map_cons, List.nodup_cons] at hnd
    rcases List.mem_cons.mp hm with hm' | hm'
    · cases hm'
      simp [findEntry_cons]
    · have hne : n₀ ≠ n := by
        intro hc
        subst hc
        exact hnd.1 (List.mem_map.mpr ⟨(n₀, t), hm', rfl⟩)
      rw [findEntry_cons, if_neg hne]
      exact ih hnd.2 hm'

theorem findEntry_filter_mem {es : Entries} {sNames : List String} {n : String}
    (h : sNames.contains n = true) :
    findEntry n (es.filter (fun e => sNames.contains e.1)) = findEntry n es := by
  induction es with
  | nil => simp
  | cons e rest ih =>
    obtain ⟨n₀, t₀⟩ := e
    by_cases hn : n₀ = n
    · subst hn
      rw [List.filter_cons_of_pos (by simpa using h), findEntry_cons, findEntry_cons]
      simp
    · by_cases hk : sNames.contains n₀ = true
      · rw [List.filter_cons_of_pos (by simpa using hk), findEntry_cons, findEntry_cons,
          if_neg hn, if_neg hn]
        exact ih
      · rw [List.filter_cons_of_neg (by simpa using hk), findEntry_cons, if_neg hn]
        exact ih

theorem findEntry_filter_notMem {es : Entries} {sNames : List String} {n : String}
    (h : sNames.contains n = false) :
    findEntry n (es.filter (fun e => sNames.contains e.1)) = none := by
  induction es with
  | nil => simp [findEntry_nil]
  | cons e rest ih =>
    obtain ⟨n₀, t₀⟩ := e
    by_cases hk : sNames.contains n₀ = true
    · have hn : n₀ ≠ n := by
        intro hc
        subst hc
        rw [hk] at h
        cases h
      rw [List.filter_cons_of_pos (by simpa using hk), findEntry_cons, if_neg hn]
      exact ih
    · rw [List.filter_cons_of_neg (by simpa using hk)]
      exact ih

/-! ## Characterisation of the copy loop -/

theorem copyStep_ok_preserved {md5 : String → String} {path : FPath} :
    ∀ {sfiles : List (String × String × Nat)} {res res' : Entries} {evs : List Event},
      copyStep md5 path sfiles res = (res', evs, none) →
      ∀ n, n ∉ sfiles.map Prod.fst → findEntry n res' = findEntry n res := by
  intro sfiles
  induction sfiles with
  | nil =>
    intro res res' evs heq n _
    simp only [copyStep, Prod.mk.injEq] at heq
    rw [heq.1]
  | cons hd rest ih =>
    obtain ⟨n₀, c₀, m₀⟩ := hd
    intro res res' evs heq n hn
    simp only [List.map_cons, List.mem_cons, not_or] at hn
    rcases hf : findEntry n₀ res with _ | t₀
    · rcases hout : copyStep md5 path rest (setEntry n₀ (.file c₀ m₀) res) with ⟨r1, e1, er1⟩
      simp only [copyStep, hf, hout, Prod.mk.injEq] at heq
      rw [← heq.1]
      rw [ih (by rw [hout, heq.2.2]) n hn.2]
      exact findEntry_setEntry_other hn.1 _ _
    · cases t₀ with
      | file c' m' =>
        by_cases hmd5 : md5 c₀ = md5 c'
        · simp only [copyStep, hf, hmd5, if_true] at heq
          exact ih heq n hn.2
        · rcases hout : copyStep md5 path rest (setEntry n₀ (.file c₀ m₀) res) with ⟨r1, e1, er1⟩
          simp only [copyStep, hf, hmd5, if_false, hout, Prod.mk.injEq] at heq
          rw [← heq.1]
          rw [ih (by rw [hout, heq.2.2]) n hn.2]
          exact findEntry_setEntry_other hn.1 _ _
      | dir sub =>
        simp only [copyStep, hf, Prod.mk.injEq] at heq
        cases heq.2.2

theorem copyStep_ok_file {md5 : String → String} {path : FPath} :
    ∀ {sfiles : List (String × String × Nat)} {res res' : Entries} {evs : List Event},
      copyStep md5 path sfiles res = (res', evs, none) →
      (sfiles.map Prod.fst).Nodup →
      ∀ {n c m}, (n, c, m) ∈ sfiles →
        ∃ c' m', findEntry n res' = some (.file c' m') ∧ md5 c' = md5 c := by
  intro sfiles
  induction sfiles with
  | nil =>
    intro res res' evs _ _ n c m hm
    cases hm
  | cons hd rest ih =>
    obtain ⟨n₀, c₀, m₀⟩ := hd
    intro res res' evs heq hnd n c m hm
    simp only [List.map_cons, List.nodup_cons] at hnd
    rcases hf : findEntry n₀ res with _ | t₀
    · rcases hout : copyStep md5 path rest (setEntry n₀ (.file c₀ m₀) res) with ⟨r1, e1, er1⟩
      simp only [copyStep, hf, hout, Prod.mk.injEq] at heq
      obtain ⟨h1, _, h3⟩ := heq
      subst h1
      rcases List.mem_cons.mp hm with hm' | hm'
      · injection hm' with e1' e2'
        injection e2' with e3' e4'
        subst e1'
        subst e3'
        refine ⟨c, m₀, ?_, rfl⟩
        rw [copyStep_ok_preserved (by rw [hout, h3]) n (fun hc => hnd.1 hc)]
        exact findEntry_setEntry_self n _ res
      · exact ih (by rw [hout, h3]) hnd.2 hm'
    · cases t₀ with
      | file c' m' =>
        by_cases hmd5 : md5 c₀ = md5 c'
        · simp only [copyStep, hf, hmd5, if_true] at heq
          rcases List.mem_cons.mp hm with hm' | hm'
          · injection hm' with e1' e2'
            injection e2' with e3' e4'
            subst e1'
            subst e3'
            refine ⟨c', m', ?_, hmd5.symm⟩
            rw [copyStep_ok_preserved heq n (fun hc => hnd.1 hc)]
            exact hf
          · exact ih heq hnd.2 hm'
        · rcases hout : copyStep md5 path rest (setEntry n₀ (.file c₀ m₀) res) with ⟨r1, e1, er1⟩
          simp only [copyStep, hf, hmd5, if_false, hout, Prod.mk.injEq] at heq
          obtain ⟨h1, _, h3⟩ := heq
          subst h1
          rcases List.mem_cons.mp hm with hm' | hm'
          · injection hm' with e1' e2'
            injection e2' with e3' e4'
            subst e1'
            subst e3'
            refine ⟨c, m₀, ?_, rfl⟩
            rw [copyStep_ok_preserved (by rw [hout, h3]) n (fun hc => hnd.1 hc)]
            exact findEntry_setEntry_self n _ res
          · exact ih (by rw [hout, h3]) hnd.2 hm'
      | dir sub =>
        simp only [copyStep, hf, Prod.mk.injEq] at heq
        cases heq.2.2

theorem copyStep_ok_wf {md5 : String → String} {path : FPath} :
    ∀ {sfiles : List (String × String × Nat)} {res res' : Entries} {evs : List Event},
      copyStep md5 path sfiles res = (res', evs, none) →
      wfE res = true → wfE res' = true := by
  intro sfiles
  induction sfiles with
  | nil =>
    intro res res' evs heq hwf
    simp only [copyStep, Prod.mk.injEq] at heq
    rw [← heq.1]
    exact hwf
  | cons hd rest ih =>
    obtain ⟨n₀, c₀, m₀⟩ := hd
    intro res res' evs heq hwf
    rcases hf : findEntry n₀ res with _ | t₀
    · rcases hout : copyStep md5 path rest (setEntry n₀ (.file c₀ m₀) res) with ⟨r1, e1, er1⟩
      simp only [copyStep, hf, hout, Prod.mk.injEq] at heq
      obtain ⟨h1, _, h3⟩ := heq
      subst h1
      exact ih (by rw [hout, h3]) (wfE_setEntry n₀ hwf (by simp [wfT]))
    · cases t₀ with
      | file c' m' =>
        by_cases hmd5 : md5 c₀ = md5 c'
        · simp only [copyStep, hf, hmd5, if_true] at heq
          exact ih heq hwf
        · rcases hout : copyStep md5 path rest (setEntry n₀ (.file c₀ m₀) res) with ⟨r1, e1, er1⟩
          simp only [copyStep, hf, hmd5, if_false, hout, Prod.mk.injEq] at heq
          obtain ⟨h1, _, h3⟩ := heq
          subst h1
          exact ih (by rw [hout, h3]) (wfE_setEntry n₀ hwf (by simp [wfT]))
      | dir sub =>
        simp only [copyStep, hf, Prod.mk.injEq] at heq
        cases heq.2.2

/-- The copy decision of lines 37-40, over a whole directory's file list: a
copy event is logged for name `n` exactly when `n` is a source file whose
replica counterpart is missing or has a different digest. -/
theorem copyStep_events_iff {md5 : String → String} {path : FPath} :
    ∀ {sfiles : List (String × String × Nat)} {res res' : Entries} {evs : List Event},
      copyStep md5 path sfiles res = (res', evs, none) →
      (sfiles.map Prod.fst).Nodup →
      ∀ n, (Event.copyFile (path ++ [n]) ∈ evs ↔
        ∃ c m, (n, c, m) ∈ sfiles ∧
          (findEntry n res = none ∨
           ∃ c' m', findEntry n res = some (.file c' m') ∧ md5 c' ≠ md5 c)) := by
  intro sfiles
  induction sfiles with
  | nil =>
    intro res res' evs heq _ n
    simp only [copyStep, Prod.mk.injEq] at heq
    rw [← heq.2.1]
    simp
  | cons hd rest ih =>
    obtain ⟨n₀, c₀, m₀⟩ := hd
    intro res res' evs heq hnd n
    simp only [List.map_cons, List.nodup_cons] at hnd
    rcases hf : findEntry n₀ res with _ | t₀
    · -- replica file missing: a copy happens
      rcases hout : copyStep md5 path rest (setEntry n₀ (.file c₀ m₀) res) with ⟨r1, e1, er1⟩
      simp only [copyStep, hf, hout, Prod.mk.injEq] at heq
      obtain ⟨_, h2, h3⟩ := heq
      rw [← h2]
      by_cases hn : n = n₀
      · subst hn
        constructor
        · intro _
          exact ⟨c₀, m₀, List.mem_cons_self _ _, Or.inl hf⟩
        · intro _
          exact List.mem_cons_self _ _
      · have hpath : Event.copyFile (path ++ [n]) ≠ Event.copyFile (path ++ [n₀]) := by
          intro hc
          injection hc with hc'
          exact hn (by simpa using hc')
        rw [List.mem_cons]
        constructor
        · rintro (hc | hc)
          · cases hpath hc
          · obtain ⟨c, m, hmem, hcond⟩ := (ih (by rw [hout, h3]) hnd.2 n).mp hc
            rw [findEntry_setEntry_other hn _ _] at hcond
            exact ⟨c, m, List.mem_cons_of_mem _ hmem, hcond⟩
        · rintro ⟨c, m, hmem, hcond⟩
          rcases List.mem_cons.mp hmem with hm' | hm'
          · injection hm' with e1' _
            cases hn e1'
          · refine Or.inr ((ih (by rw [hout, h3]) hnd.2 n).mpr ⟨c, m, hm', ?_⟩)
            rw [findEntry_setEntry_other hn _ _]
            exact hcond
    · cases t₀ with
      | file c' m' =>
        by_cases hmd5 : md5 c₀ = md5 c'
        · -- digests agree: no copy for the head
          simp only [copyStep, hf, hmd5, if_true] at heq
          by_cases hn : n = n₀
          · subst hn
            rw [ih heq hnd.2 n]
            constructor
            · rintro ⟨c, m, hmem, _⟩
              exact absurd (List.mem_map.mpr ⟨(n, c, m), hmem, rfl⟩) hnd.1
            · rintro ⟨c, m, hmem, hcond⟩
              rcases List.mem_cons.mp hmem with hm' | hm'
              · injection hm' with _ e2'
                injection e2' with e3' _
                subst e3'
                rcases hcond with hcond | ⟨c'', m'', hcond, hne⟩
                · rw [hf] at hcond; cases hcond
                · rw [hf] at hcond
                  injection hcond with hcond'
                  injection hcond' with hc1 _
                  exact absurd (hc1 ▸ hmd5.symm) hne
              · exact absurd (List.mem_map.mpr ⟨(n, c, m), hm', rfl⟩) hnd.1
          · rw [ih heq hnd.2 n]
            constructor
            · rintro ⟨c, m, hmem, hcond⟩
              exact ⟨c, m, List.mem_cons_of_mem _ hmem, hcond⟩
            · rintro ⟨c, m, hmem, hcond⟩
              rcases List.mem_cons.mp hmem with hm' | hm'
              · injection hm' with e1' _
                cases hn e1'
              · exact ⟨c, m, hm', hcond⟩
        · -- digests differ: a copy happens
          rcases hout : copyStep md5 path rest (setEntry n₀ (.file c₀ m₀) res) with ⟨r1, e1, er1⟩
          simp only [copyStep, hf, hmd5, if_false, hout, Prod.mk.injEq] at heq
          obtain ⟨_, h2, h3⟩ := heq
          rw [← h2]
          by_cases hn : n = n₀
          · subst hn
            constructor
            · intro _
              exact ⟨c₀, m₀, List.mem_cons_self _ _,
                Or.inr ⟨c', m', hf, fun hc => hmd5 hc.symm⟩⟩
            · intro _
              exact List.mem_cons_self _ _
          · have hpath : Event.copyFile (path ++ [n]) ≠ Event.copyFile (path ++ [n₀]) := by
              intro hc
              injection hc with hc'
              exact hn (by simpa using hc')
            rw [List.mem_cons]
            constructor
            · rintro (hc | hc)
              · cases hpath hc
              · obtain ⟨c, m, hmem, hcond⟩ := (ih (by rw [hout, h3]) hnd.2 n).mp hc
                rw [findEntry_setEntry_other hn _ _] at hcond
                exact ⟨c, m, List.mem_cons_of_mem _ hmem, hcond⟩
            · rintro ⟨c, m, hmem, hcond⟩
              rcases List.mem_cons.mp hmem with hm' | hm'
              · injection hm' with e1' _
                cases hn e1'
              · refine Or.inr ((ih (by rw [hout, h3]) hnd.2 n).mpr ⟨c, m, hm', ?_⟩)
                rw [findEntry_setEntry_other hn _ _]
                exact hcond
      | dir sub =>
        simp only [copyStep, hf, Prod.mk.injEq] at heq
        cases heq.2.2

/-! ## Characterisation of the pruning loop -/

theorem pruneStep_ok {path : FPath} {sNames : List String} :
    ∀ {es es' : Entries} {evs : List Event},
      pruneStep path sNames es = (es', evs, none) →
      es' = es.filter (fun e => sNames.contains e.1) := by
  intro es
  induction es with
  | nil =>
    intro es' evs heq
    simp only [pruneStep, Prod.mk.injEq] at heq
    rw [← heq.1, List.filter_nil]
  | cons hd rest ih =>
    obtain ⟨n, t⟩ := hd
    intro es' evs heq
    by_cases hk : sNames.contains n = true
    · have hstep : pruneStep path sNames ((n, t) :: rest)
          = ((n, t) :: (pruneStep path sNames rest).1,
             (pruneStep path sNames rest).2.1, (pruneStep path sNames rest).2.2) := by
        simp [pruneStep, hk]
        intro hmem
        exact absurd (contains_iff_mem.mp hk) hmem
      rcases hout : pruneStep path sNames rest with ⟨r1, e1, er1⟩
      rw [hstep, hout] at heq
      simp only [Prod.mk.injEq] at heq
      obtain ⟨h1, h2, h3⟩ := heq
      subst h3
      rw [← h1, List.filter_cons_of_pos (by simpa using hk), ih hout]
    · cases t with
      | file c m =>
        have hstep : pruneStep path sNames ((n, FSTree.file c m) :: rest)
            = ((pruneStep path sNames rest).1,
               Event.removeFile (path ++ [n]) :: (pruneStep path sNames rest).2.1,
               (pruneStep path sNames rest).2.2) := by
          simp [pruneStep, hk]
          intro hmem
          exact hk (contains_iff_mem.mpr hmem)
        rcases hout : pruneStep path sNames rest with ⟨r1, e1, er1⟩
        rw [hstep, hout] at heq
        simp only [Prod.mk.injEq] at heq
        obtain ⟨h1, h2, h3⟩ := heq
        subst h3
        rw [← h1, List.filter_cons_of_neg (by simpa using hk), ih hout]
      | dir sub =>
        have hk' : n ∉ sNames := fun hmem => hk (contains_iff_mem.mpr hmem)
        simp [pruneStep, hk'] at heq

/-! ## Correctness of the downward pass -/

/-- `rt` mirrors `src`: directories at the same relative paths, files at the
same relative paths, and at every file path the replica digest equals the
source digest. -/
def Mirrors (md5 : String → String) (src rt : FSTree) : Prop :=
  (∀ q, dirAt rt q = dirAt src q) ∧
  (∀ q, (fileAt rt q).isSome = (fileAt src q).isSome) ∧
  (∀ q c m, fileAt src q = some (c, m) →
    ∃ c' m', fileAt rt q = some (c', m') ∧ md5 c' = md5 c)

/-- Pointwise (per-name) version of `Mirrors` for one directory level. -/
def NameMirrors (md5 : String → String) : Option FSTree → Option FSTree → Prop
  | none, none => True
  | some (.file c _), some (.file c' _) => md5 c' = md5 c
  | some (.dir sub), some rt => Mirrors md5 (.dir sub) rt
  | _, _ => False

theorem mirrors_of_pointwise {md5 : String → String} {ses res3 : Entries}
    (h : ∀ n, NameMirrors md5 (findEntry n ses) (findEntry n res3)) :
    Mirrors md5 (.dir ses) (.dir res3) := by
  refine ⟨?_, ?_, ?_⟩
  · intro q
    cases q with
    | nil => rfl
    | cons n q' =>
      have hn := h n
      rw [dirAt_dir_findEntry, dirAt_dir_findEntry]
      cases hs : findEntry n ses with
      | none =>
        cases hr : findEntry n res3 with
        | none => rfl
        | some rt => rw [hs, hr] at hn; cases hn
      | some t =>
        cases hr : findEntry n res3 with
        | none =>
          rw [hs, hr] at hn
          cases t <;> cases hn
        | some rt =>
          rw [hs, hr] at hn
          cases t with
          | file c m =>
            cases rt with
            | file c' m' =>
              show dirAt (FSTree.file c' m') q' = dirAt (FSTree.file c m) q'
              rw [dirAt_file, dirAt_file]
            | dir es' => cases hn
          | dir sub => exact hn.1 q'
  · intro q
    cases q with
    | nil => rfl
    | cons n q' =>
      have hn := h n
      rw [fileAt_dir_findEntry, fileAt_dir_findEntry]
      cases hs : findEntry n ses with
      | none =>
        cases hr : findEntry n res3 with
        | none => rfl
        | some rt => rw [hs, hr] at hn; cases hn
      | some t =>
        cases hr : findEntry n res3 with
        | none =>
          rw [hs, hr] at hn
          cases t <;> cases hn
        | some rt =>
          rw [hs, hr] at hn
          cases t with
          | file c m =>
            cases rt with
            | file c' m' =>
              show (fileAt (FSTree.file c' m') q').isSome = (fileAt (FSTree.file c m) q').isSome
              cases q' with
              | nil => rw [fileAt_file_nil, fileAt_file_nil]; rfl
              | cons a b => rw [fileAt_file_cons, fileAt_file_cons]
            | dir es' => cases hn
          | dir sub => exact hn.2.1 q'
  · intro q c m hq
    cases q with
    | nil => rw [fileAt_dir_nil] at hq; cases hq
    | cons n q' =>
      have hn := h n
      rw [fileAt_dir_findEntry] at hq ⊢
      cases hs : findEntry n ses with
      | none => rw [hs] at hq; cases hq
      | some t =>
        rw [hs] at hq
        cases hr : findEntry n res3 with
        | none =>
          rw [hs, hr] at hn
          cases t <;> cases hn
        | some rt =>
          rw [hs, hr] at hn
          cases t with
          | file c₀ m₀ =>
            replace hq : fileAt (FSTree.file c₀ m₀) q' = some (c, m) := hq
            cases q' with
            | nil =>
              rw [fileAt_file_nil] at hq
              injection hq with hq'
              injection hq' with hc hm
              subst hc
              cases rt with
              | file c' m' =>
                refine ⟨c', m', ?_, hn⟩
                show fileAt (FSTree.file c' m') [] = some (c', m')
                rw [fileAt_file_nil]
              | dir es' => cases hn
            | cons a b => rw [fileAt_file_cons] at hq; cases hq
          | dir sub => exact hn.2.2 q' c m hq

/-- Statement: one error-free `downDir` visit on a well-formed source listing
and replica produces a mirror of the source. -/
def DownOk (md5 : String → String) (ses : Entries) : Prop :=
  ∀ path repl rt evs, wfE ses = true → wfO repl = true →
    downDir md5 path ses repl = (rt, evs, none) →
    Mirrors md5 (.dir ses) rt ∧ wfT rt = true

/-- Statement: an error-free `downChildren` sweep over the source listing
installs a mirror of each source subdirectory and touches nothing else. -/
def ChildrenOk (md5 : String → String) (ses : Entries) : Prop :=
  ∀ path res res' evs, wfE ses = true → wfE res = true →
    (∀ n sub, (n, FSTree.dir sub) ∈ ses → findEntry n res = none) →
    downChildren md5 path ses res = (res', evs, none) →
    wfE res' = true ∧
    (∀ n sub, (n, FSTree.dir sub) ∈ ses →
      ∃ rt, findEntry n res' = some rt ∧ Mirrors md5 (.dir sub) rt ∧ wfT rt = true) ∧
    (∀ n, (∀ sub, (n, FSTree.dir sub) ∉ ses) → findEntry n res' = findEntry n res)

/-- Assembly of one `downDir` visit from its three loops, given that the
recursive visits behave. -/
theorem pipeline_ok {md5 : String → String} {ses res0 res1 res2 res3 : Entries}
    {path : FPath} {ev1 ev2 ev3 : List Event}
    (hch : ChildrenOk md5 ses) (hwfs : wfE ses = true) (hwf0 : wfE res0 = true)
    (hcp : copyStep md5 path (filesOf ses) res0 = (res1, ev1, none))
    (hpr : pruneStep path (fileNames ses) res1 = (res2, ev2, none))
    (hdc : downChildren md5 path ses res2 = (res3, ev3, none)) :
    Mirrors md5 (.dir ses) (.dir res3) ∧ wfE res3 = true := by
  have hndsf : ((filesOf ses).map Prod.fst).Nodup := by
    have h := wf_fileNames_nodup hwfs
    rw [fileNames_eq_map] at h
    exact h
  have hwf1 : wfE res1 = true := copyStep_ok_wf hcp hwf0
  have hres2 : res2 = res1.filter (fun e => (fileNames ses).contains e.1) := pruneStep_ok hpr
  have hwf2 : wfE res2 = true := by
    rw [hres2]
    exact wfE_filter _ hwf1
  have hdirnone : ∀ n sub, (n, FSTree.dir sub) ∈ ses → findEntry n res2 = none := by
    intro n sub hm
    have hnotf : n ∉ fileNames ses := mem_dir_not_fileName hwfs hm
    rw [hres2]
    refine findEntry_filter_notMem ?_
    rcases hc : (fileNames ses).contains n with _ | _
    · rfl
    · exact absurd (contains_iff_mem.mp hc) hnotf
  obtain ⟨hwf3, hdirs, hothers⟩ := hch path res2 res3 ev3 hwfs hwf2 hdirnone hdc
  refine ⟨mirrors_of_pointwise ?_, hwf3⟩
  intro n
  cases hs : findEntry n ses with
  | none =>
    have hnames : n ∉ ses.map Prod.fst := findEntry_none_iff.mp hs
    have h3 : findEntry n res3 = findEntry n res2 := by
      refine hothers n ?_
      intro sub hm
      exact hnames (List.mem_map.mpr ⟨(n, .dir sub), hm, rfl⟩)
    have h2 : findEntry n res2 = none := by
      rw [hres2]
      refine findEntry_filter_notMem ?_
      rcases hc : (fileNames ses).contains n with _ | _
      · rfl
      · exact absurd ((fileNames_sublist ses).subset (contains_iff_mem.mp hc)) hnames
    rw [h3, h2]
    trivial
  | some t =>
    have hmem := mem_of_findEntry hs
    cases t with
    | file c m =>
      have hnotdir : ∀ sub, (n, FSTree.dir sub) ∉ ses := by
        intro sub hmd
        cases nodup_fst_inj (wf_names_nodup hwfs) hmem hmd
      have h3 : findEntry n res3 = findEntry n res2 := hothers n hnotdir
      have hnF : n ∈ fileNames ses := mem_fileNames_iff.mpr ⟨c, m, hmem⟩
      have h2 : findEntry n res2 = findEntry n res1 := by
        rw [hres2]
        exact findEntry_filter_mem (contains_iff_mem.mpr hnF)
      obtain ⟨c', m', h1, hd5⟩ := copyStep_ok_file hcp hndsf (mem_filesOf hmem)
      rw [h3, h2, h1]
      exact hd5
    | dir sub =>
      obtain ⟨rtn, hfind, hmir, _⟩ := hdirs n sub hmem
      rw [hfind]
      exact hmir

theorem downOk_of_childrenOk {md5 : String → String} {ses : Entries}
    (hch : ChildrenOk md5 ses) : DownOk md5 ses := by
  intro path repl rt evs hwfs hwfr heq
  cases repl with
  | none =>
    rcases hcp : copyStep md5 path (filesOf ses) [] with ⟨res1, ev1, er1⟩
    cases er1 with
    | some e =>
      have hstep : downDir md5 path ses none
          = (.dir res1, [Event.createDir path] ++ ev1, some e) := by
        simp [downDir, hcp]
      rw [hstep] at heq
      simp at heq
    | none =>
      rcases hpr : pruneStep path (fileNames ses) res1 with ⟨res2, ev2, er2⟩
      cases er2 with
      | some e =>
        have hstep : downDir md5 path ses none
            = (.dir res2, [Event.createDir path] ++ ev1 ++ ev2, some e) := by
          simp [downDir, hcp, hpr]
        rw [hstep] at heq
        simp at heq
      | none =>
        rcases hdc : downChildren md5 path ses res2 with ⟨res3, ev3, er3⟩
        have hstep : downDir md5 path ses none
            = (.dir res3, [Event.createDir path] ++ ev1 ++ ev2 ++ ev3, er3) := by
          simp [downDir, hcp, hpr, hdc]
        rw [hstep] at heq
        simp only [Prod.mk.injEq] at heq
        obtain ⟨h1, _, h3⟩ := heq
        subst h3
        obtain ⟨hmir, hwf3⟩ :=
          pipeline_ok hch hwfs (by simp [wfE]) hcp hpr hdc
        rw [← h1]
        exact ⟨hmir, by simpa [wfT] using hwf3⟩
  | some t =>
    cases t with
    | file c m =>
      have hstep : (downDir md5 path ses (some (.file c m))).2.2 ≠ none := by
        simp [downDir]
      rw [heq] at hstep
      simp at hstep
    | dir res0 =>
      have hwf0 : wfE res0 = true := by simpa [wfO, wfT] using hwfr
      rcases hcp : copyStep md5 path (filesOf ses) res0 with ⟨res1, ev1, er1⟩
      cases er1 with
      | some e =>
        have hstep : downDir md5 path ses (some (.dir res0))
            = (.dir res1, ev1, some e) := by
          simp [downDir, hcp]
        rw [hstep] at heq
        simp at heq
      | none =>
        rcases hpr : pruneStep path (fileNames ses) res1 with ⟨res2, ev2, er2⟩
        cases er2 with
        | some e =>
          have hstep : downDir md5 path ses (some (.dir res0))
              = (.dir res2, ev1 ++ ev2, some e) := by
            simp [downDir, hcp, hpr]
          rw [hstep] at heq
          simp at heq
        | none =>
          rcases hdc : downChildren md5 path ses res2 with ⟨res3, ev3, er3⟩
          have hstep : downDir md5 path ses (some (.dir res0))
              = (.dir res3, ev1 ++ ev2 ++ ev3, er3) := by
            simp [downDir, hcp, hpr, hdc]
          rw [hstep] at heq
          simp only [Prod.mk.injEq] at heq
          obtain ⟨h1, _, h3⟩ := heq
          subst h3
          obtain ⟨hmir, hwf3⟩ := pipeline_ok hch hwfs hwf0 hcp hpr hdc
          rw [← h1]
          exact ⟨hmir, by simpa [wfT] using hwf3⟩

theorem childrenOk_all (md5 : String → String) : ∀ ses, ChildrenOk md5 ses := by
  intro ses
  induction ses using entriesRec with
  | hnil =>
    intro path res res' evs hwfs hwfr hdn heq
    simp only [downChildren, Prod.mk.injEq] at heq
    obtain ⟨h1, _, _⟩ := heq
    subst h1
    refine ⟨hwfr, ?_, fun n _ => rfl⟩
    intro n sub hm
    cases hm
  | hfile n₀ c m rest ih =>
    intro path res res' evs hwfs hwfr hdn heq
    have hstep : downChildren md5 path ((n₀, FSTree.file c m) :: rest) res
        = downChildren md5 path rest res := by
      simp [downChildren]
    rw [hstep] at heq
    rw [wfE_cons] at hwfs
    simp only [Bool.and_eq_true, Bool.not_eq_true'] at hwfs
    have hdn' : ∀ n sub, (n, FSTree.dir sub) ∈ rest → findEntry n res = none :=
      fun n sub hm => hdn n sub (List.mem_cons_of_mem _ hm)
    obtain ⟨h1, h2, h3⟩ := ih path res res' evs hwfs.2 hwfr hdn' heq
    refine ⟨h1, ?_, ?_⟩
    · intro n sub hm
      rcases List.mem_cons.mp hm with hm' | hm'
      · injection hm' with ha hb
        cases hb
      · exact h2 n sub hm'
    · intro n hnot
      exact h3 n (fun sub hm => hnot sub (List.mem_cons_of_mem _ hm))
  | hdir n₀ sub rest ihsub ihrest =>
    intro path res res' evs hwfs hwfr hdn heq
    rw [wfE_cons] at hwfs
    simp only [Bool.and_eq_true, Bool.not_eq_true'] at hwfs
    have hn₀ : n₀ ∉ rest.map Prod.fst := any_name_eq_false_iff.mp hwfs.1.1
    have hwfsub : wfE sub = true := by simpa [wfT] using hwfs.1.2
    have hfr : findEntry n₀ res = none := hdn n₀ sub (List.mem_cons_self _ _)
    rcases hd : downDir md5 (path ++ [n₀]) sub none with ⟨dt, de, der⟩
    cases der with
    | some e =>
      have hstep : downChildren md5 path ((n₀, FSTree.dir sub) :: rest) res
          = (setEntry n₀ dt res, de, some e) := by
        simp [downChildren, hfr, hd]
      rw [hstep] at heq
      simp at heq
    | none =>
      rcases hout : downChildren md5 path rest (setEntry n₀ dt res) with ⟨r2, e2, er2⟩
      have hstep : downChildren md5 path ((n₀, FSTree.dir sub) :: rest) res
          = (r2, de ++ e2, er2) := by
        simp [downChildren, hfr, hd, hout]
      rw [hstep] at heq
      simp only [Prod.mk.injEq] at heq
      obtain ⟨h1, _, h3⟩ := heq
      subst h3
      subst h1
      obtain ⟨hmir, hwfdt⟩ :=
        downOk_of_childrenOk ihsub (path ++ [n₀]) none dt de hwfsub (by simp [wfO]) hd
      have hwfset : wfE (setEntry n₀ dt res) = true := wfE_setEntry n₀ hwfr hwfdt
      have hdnrest : ∀ n s', (n, FSTree.dir s') ∈ rest →
          findEntry n (setEntry n₀ dt res) = none := by
        intro n s' hm
        have hne : n ≠ n₀ := by
          intro hc
          subst hc
          exact hn₀ (List.mem_map.mpr ⟨(n, .dir s'), hm, rfl⟩)
        rw [findEntry_setEntry_other hne]
        exact hdn n s' (List.mem_cons_of_mem _ hm)
      obtain ⟨hw2, hdirs, hoth⟩ :=
        ihrest path (setEntry n₀ dt res) r2 e2 hwfs.2 hwfset hdnrest hout
      refine ⟨hw2, ?_, ?_⟩
      · intro n s' hm
        rcases List.mem_cons.mp hm with hm' | hm'
        · injection hm' with ha hb
          injection hb with hb'
          subst ha
          subst hb'
          have hkeep : findEntry n r2 = findEntry n (setEntry n dt res) := by
            refine hoth n ?_
            intro s'' hm''
            exact hn₀ (List.mem_map.mpr ⟨(n, .dir s''), hm'', rfl⟩)
          rw [hkeep, findEntry_setEntry_self]
          exact ⟨dt, rfl, hmir, hwfdt⟩
        · exact hdirs n s' hm'
      · intro n hnot
        have hne : n ≠ n₀ := by
          intro hc
          subst hc
          exact hnot sub (List.mem_cons_self _ _)
        have h4 : findEntry n r2 = findEntry n (setEntry n₀ dt res) := by
          refine hoth n ?_
          intro s'' hm''
          exact hnot s'' (List.mem_cons_of_mem _ hm'')
        rw [h4, findEntry_setEntry_other hne]

/-- Main correctness of the downward pass of `synchronize_folders`. -/
theorem downDir_ok (md5 : String → String) (ses : Entries) : DownOk md5 ses :=
  downOk_of_childrenOk (childrenOk_all md5 ses)

/-- Tree-level characterisation of the cleanup walk: files untouched, a
directory below the root survives iff its subtree holds a file, the walk root
keeps its shape, and only remove-dir events are logged. -/
theorem sweepT_char (t : FSTree) (p : FPath) (hwf : wfT t = true) :
    (∀ q, fileAt (sweepT p t).1 q = fileAt t q) ∧
    (∀ n q, dirAt (sweepT p t).1 (n :: q) = (dirAt t (n :: q) && hasFileBelowAt t (n :: q))) ∧
    dirAt (sweepT p t).1 [] = dirAt t [] ∧
    (∀ ev ∈ (sweepT p t).2, ∃ r, ev = Event.removeDir r) := by
  cases t with
  | file c m =>
    have h0 : sweepT p (.file c m) = (.file c m, []) := rfl
    rw [h0]
    exact ⟨fun q => rfl, fun n q => by simp [dirAt_file], rfl, by simp⟩
  | dir es =>
    obtain ⟨h1, h2, _, _, h5⟩ := sweepE_char es hwf p
    have h0 : sweepT p (.dir es)
        = (.dir (sweepE p es).1, (sweepE p es).2.1 ++ (sweepE p es).2.2) := rfl
    rw [h0]
    refine ⟨?_, h2, rfl, h5⟩
    intro q
    cases q with
    | nil => rw [fileAt_dir_nil, fileAt_dir_nil]
    | cons n q' => exact h1 n q'

/-! ## Claim theorems -/

/-- **C8**: the bottom-up cleanup traversal (lines 50-55) removes exactly the
directories below the replica root whose subtree contains no file — so every
empty directory is removed, including parents that become empty only because
their deeper empty children were removed first in the same sweep — while
files are untouched, the walk logs only remove-dir events, and the replica
root itself survives (with its shape) even when it is empty. -/
theorem c8_upward_sweep (t : FSTree) (p : FPath) (hwf : wfT t = true) :
    (∀ q, fileAt (sweepT p t).1 q = fileAt t q) ∧
    (∀ n q, dirAt (sweepT p t).1 (n :: q) = (dirAt t (n :: q) && hasFileBelowAt t (n :: q))) ∧
    dirAt (sweepT p t).1 [] = dirAt t [] ∧
    (∀ ev ∈ (sweepT p t).2, ∃ r, ev = Event.removeDir r) :=
  sweepT_char t p hwf

/-- Witness for **C8** on a concrete tree: replica `{e/ (empty dir), f (file)}`
is well-formed; the sweep removes `e`, keeps `f`, keeps the root. -/
theorem c8_upward_sweep_witness :
    wfT (FSTree.dir [("e", FSTree.dir []), ("f", FSTree.file "c" 0)]) = true ∧
    ((∀ q, fileAt (sweepT [] (FSTree.dir [("e", FSTree.dir []), ("f", FSTree.file "c" 0)])).1 q
        = fileAt (FSTree.dir [("e", FSTree.dir []), ("f", FSTree.file "c" 0)]) q) ∧
     (∀ n q, dirAt (sweepT [] (FSTree.dir [("e", FSTree.dir []), ("f", FSTree.file "c" 0)])).1 (n :: q)
        = (dirAt (FSTree.dir [("e", FSTree.dir []), ("f", FSTree.file "c" 0)]) (n :: q)
           && hasFileBelowAt (FSTree.dir [("e", FSTree.dir []), ("f", FSTree.file "c" 0)]) (n :: q))) ∧
     dirAt (sweepT [] (FSTree.dir [("e", FSTree.dir []), ("f", FSTree.file "c" 0)])).1 []
        = dirAt (FSTree.dir [("e", FSTree.dir []), ("f", FSTree.file "c" 0)]) [] ∧
     (∀ ev ∈ (sweepT [] (FSTree.dir [("e", FSTree.dir []), ("f", FSTree.file "c" 0)])).2,
        ∃ r, ev = Event.removeDir r)) :=
  ⟨by simp [wfT, wfE],
   c8_upward_sweep (FSTree.dir [("e", FSTree.dir []), ("f", FSTree.file "c" 0)]) []
     (by simp [wfT, wfE])⟩

/-- **C1, counterexample**: with source `{d/}` (one empty directory) and no
initial replica, the pass completes without raising, yet the replica's
relative-path set does not equal the source's: the source has directory `d`
and the final replica does not (the upward sweep deleted the freshly mirrored
empty directory).  This refutes the claim as stated. -/
theorem c1_counterexample :
    (synchronize_folders (fun s => s) (some (.dir [("d", .dir [])])) none).2.2 = none ∧
    dirAt (FSTree.dir [("d", FSTree.dir [])]) ["d"] = true ∧
    dirAtO (synchronize_folders (fun s => s) (some (.dir [("d", .dir [])])) none).1 ["d"]
      = false := by
  refine ⟨?_, by simp [dirAt, lookup, findEntry_cons], ?_⟩ <;>
    simp [synchronize_folders, downDir, downChildren, copyStep, pruneStep, sweepTop, sweepT,
      sweepE, filesOf, fileNames, findEntry, setEntry, firstFileName, dirAtO, dirAt, lookup]

/-- **C1, amended**: for every well-formed source tree and initial replica
(including a missing one), if one call to `synchronize_folders` completes
without raising then afterwards the replica exists, the set of relative
*file* paths under the replica equals the set under the source with equal
content fingerprints at every file path, and the *directory* paths under the
replica are exactly the source directory paths whose subtree contains at
least one file (the pass deletes — rather than mirrors — source directories
with file-free subtrees; that is the only departure from the original
claim). -/
theorem c1_convergence_amended (md5 : String → String) (ses : Entries)
    (repl r : Option FSTree) (evs : List Event)
    (hwfs : wfE ses = true) (hwfr : wfO repl = true)
    (heq : synchronize_folders md5 (some (.dir ses)) repl = (r, evs, none)) :
    ∃ rt, r = some rt ∧
      (∀ q, (fileAt rt q).isSome = (fileAt (FSTree.dir ses) q).isSome) ∧
      (∀ q c m, fileAt (FSTree.dir ses) q = some (c, m) →
        ∃ c' m', fileAt rt q = some (c', m') ∧ md5 c' = md5 c) ∧
      (∀ n q, dirAt rt (n :: q)
        = (dirAt (FSTree.dir ses) (n :: q) && hasFileBelowAt (FSTree.dir ses) (n :: q))) ∧
      dirAt rt [] = true := by
  rcases hd : downDir md5 [] ses repl with ⟨rt1, ev1, er1⟩
  cases er1 with
  | some e =>
    have hsync : synchronize_folders md5 (some (.dir ses)) repl
        = (some rt1, ev1, some e) := by
      simp [synchronize_folders, hd]
    rw [hsync] at heq
    simp at heq
  | none =>
    obtain ⟨hmir, hwf1⟩ := downDir_ok md5 ses [] repl rt1 ev1 hwfs hwfr hd
    obtain ⟨hdirs, hfiles, hdigest⟩ := hmir
    have hroot : dirAt rt1 [] = true := by
      rw [hdirs [], dirAt_dir_nil]
    cases rt1 with
    | file c m => rw [dirAt_file] at hroot; cases hroot
    | dir es1 =>
      have hsync : synchronize_folders md5 (some (.dir ses)) repl
          = (some (sweepT [] (.dir es1)).1,
             ev1 ++ (sweepT [] (.dir es1)).2, none) := by
        simp [synchronize_folders, hd, sweepTop]
      rw [hsync] at heq
      simp only [Prod.mk.injEq] at heq
      obtain ⟨h1, _, _⟩ := heq
      obtain ⟨s1, s2, s3, _⟩ := sweepT_char (.dir es1) [] hwf1
      refine ⟨(sweepT [] (.dir es1)).1, h1.symm, ?_, ?_, ?_, ?_⟩
      · intro q
        rw [s1 q]
        exact hfiles q
      · intro q c m hq
        obtain ⟨c', m', hf, hd5⟩ := hdigest q c m hq
        exact ⟨c', m', by rw [s1 q]; exact hf, hd5⟩
      · intro n q
        rw [s2 n q, hdirs (n :: q),
          hasFileBelowAt_congr hwf1 (show wfT (FSTree.dir ses) = true by simpa [wfT] using hwfs)
            hfiles]
      · rw [s3, hroot]

/-- Witness for **C1 (amended)**: source `{a.txt: "hello"}`, replica missing.
The pass succeeds and the amended convergence conclusion holds at this
input. -/
theorem c1_convergence_amended_witness :
    wfE [("a.txt", FSTree.file "hello" 0)] = true ∧
    wfO none = true ∧
    synchronize_folders (fun s => s) (some (.dir [("a.txt", FSTree.file "hello" 0)])) none
      = (some (.dir [("a.txt", FSTree.file "hello" 0)]),
         [Event.createDir [], Event.copyFile ["a.txt"]], none) ∧
    (∃ rt, (some (FSTree.dir [("a.txt", FSTree.file "hello" 0)]) : Option FSTree) = some rt ∧
      (∀ q, (fileAt rt q).isSome
        = (fileAt (FSTree.dir [("a.txt", FSTree.file "hello" 0)]) q).isSome) ∧
      (∀ q c m, fileAt (FSTree.dir [("a.txt", FSTree.file "hello" 0)]) q = some (c, m) →
        ∃ c' m', fileAt rt q = some (c', m') ∧ (fun s => s) c' = (fun s => s) c) ∧
      (∀ n q, dirAt rt (n :: q)
        = (dirAt (FSTree.dir [("a.txt", FSTree.file "hello" 0)]) (n :: q)
           && hasFileBelowAt (FSTree.dir [("a.txt", FSTree.file "hello" 0)]) (n :: q))) ∧
      dirAt rt [] = true) :=
  ⟨by simp [wfE], rfl,
   by simp [synchronize_folders, downDir, downChildren, copyStep, pruneStep, sweepTop, sweepT,
     sweepE, filesOf, fileNames, findEntry, setEntry, firstFileName],
   c1_convergence_amended (fun s => s) [("a.txt", FSTree.file "hello" 0)] none
     (some (.dir [("a.txt", FSTree.file "hello" 0)]))
     [Event.createDir [], Event.copyFile ["a.txt"]]
     (by simp [wfE]) rfl
     (by simp [synchronize_folders, downDir, downChildren, copyStep, pruneStep, sweepTop, sweepT,
       sweepE, filesOf, fileNames, findEntry, setEntry, firstFileName])⟩

theorem mem_filesOf_rev {es : Entries} {n c : String} {m : Nat}
    (h : (n, c, m) ∈ filesOf es) : (n, FSTree.file c m) ∈ es := by
  rw [filesOf, List.mem_filterMap] at h
  obtain ⟨⟨n', t⟩, hm, hf⟩ := h
  cases t with
  | file c' m' =>
    simp only [Option.some_inj] at hf
    injection hf with h1 h2
    injection h2 with h3 h4
    subst h1
    subst h3
    subst h4
    exact hm
  | dir sub => cases hf

/-- **C7**: during the downward pass, the copy loop over a visited source
directory (lines 33-40) copies the file named `n` iff the entry named `n` of
the replica directory is absent or is a file whose digest differs from the
source file's; in particular a replica file with byte-identical content is
never recopied, whatever its modification time. -/
theorem c7_copy_decision (md5 : String → String) (path : FPath) (ses res res' : Entries)
    (evs : List Event) (hwf : wfE ses = true)
    (heq : copyStep md5 path (filesOf ses) res = (res', evs, none))
    (n c : String) (m : Nat)
    (hsrc : findEntry n ses = some (.file c m)) :
    (Event.copyFile (path ++ [n]) ∈ evs ↔
      (findEntry n res = none ∨
       ∃ c' m', findEntry n res = some (.file c' m') ∧ md5 c' ≠ md5 c)) ∧
    (∀ m', findEntry n res = some (.file c m') → Event.copyFile (path ++ [n]) ∉ evs) := by
  have hndsf : ((filesOf ses).map Prod.fst).Nodup := by
    have h := wf_fileNames_nodup hwf
    rw [fileNames_eq_map] at h
    exact h
  have hiff := copyStep_events_iff heq hndsf n
  have hmem : (n, c, m) ∈ filesOf ses := mem_filesOf (mem_of_findEntry hsrc)
  have huniq : ∀ c₀ m₀, (n, c₀, m₀) ∈ filesOf ses → c₀ = c := by
    intro c₀ m₀ h₀
    have h₁ := mem_filesOf_rev h₀
    have h₂ := nodup_fst_inj (wf_names_nodup hwf) (mem_of_findEntry hsrc) h₁
    injection h₂ with e1 e2
    exact e1.symm
  constructor
  · rw [hiff]
    constructor
    · rintro ⟨c₀, m₀, hm₀, hcond⟩
      rw [huniq c₀ m₀ hm₀] at hcond
      exact hcond
    · intro hcond
      exact ⟨c, m, hmem, hcond⟩
  · intro m' hres hin
    obtain ⟨c₀, m₀, hm₀, hcond⟩ := hiff.mp hin
    rw [huniq c₀ m₀ hm₀] at hcond
    rcases hcond with hcond | ⟨c'', m'', hcond, hne⟩
    · rw [hres] at hcond
      cases hcond
    · rw [hres] at hcond
      injection hcond with hcond'
      injection hcond' with e1 e2
      subst e1
      exact hne rfl

/-- Witness for **C7**: source directory `{a: "x"}`, replica entry
`a` with the same content but a different mtime: the copy loop logs no copy
event and the no-copy conclusion is met. -/
theorem c7_copy_decision_witness :
    wfE [("a", FSTree.file "x" 1)] = true ∧
    copyStep (fun s => s) [] (filesOf [("a", FSTree.file "x" 1)]) [("a", FSTree.file "x" 5)]
      = ([("a", FSTree.file "x" 5)], [], none) ∧
    findEntry "a" [("a", FSTree.file "x" 1)] = some (.file "x" 1) ∧
    ((Event.copyFile ([] ++ ["a"]) ∈ ([] : List Event) ↔
      (findEntry "a" [("a", FSTree.file "x" 5)] = none ∨
       ∃ c' m', findEntry "a" [("a", FSTree.file "x" 5)] = some (.file c' m') ∧
         (fun s => s) c' ≠ (fun s => s) "x")) ∧
     (∀ m', findEntry "a" [("a", FSTree.file "x" 5)] = some (.file "x" m') →
        Event.copyFile ([] ++ ["a"]) ∉ ([] : List Event))) :=
  ⟨by simp [wfE],
   by simp [copyStep, filesOf, findEntry],
   by simp [findEntry],
   c7_copy_decision (fun s => s) [] [("a", FSTree.file "x" 1)] [("a", FSTree.file "x" 5)]
     [("a", FSTree.file "x" 5)] [] (by simp [wfE]) (by simp [copyStep, filesOf, findEntry])
     "a" "x" 1 (by simp [findEntry])⟩

/-- **C10**: when the source path does not exist, `synchronize_folders`
returns normally (`os.walk` on a missing path yields nothing, so the
downward pass is a no-op), logs only remove-dir events, leaves every file in
place, and — via the upward sweep — removes exactly the replica directories
(below the root) whose subtrees contain no file; the replica root keeps its
shape. -/
theorem c10_missing_source_behavior (md5 : String → String) (repl : Option FSTree)
    (hwf : wfO repl = true) :
    (synchronize_folders md5 none repl).2.2 = none ∧
    (∀ ev ∈ (synchronize_folders md5 none repl).2.1, ∃ r, ev = Event.removeDir r) ∧
    (∀ q, fileAtO (synchronize_folders md5 none repl).1 q = fileAtO repl q) ∧
    (∀ n q, dirAtO (synchronize_folders md5 none repl).1 (n :: q)
      = (dirAtO repl (n :: q) && hasFileBelowAtO repl (n :: q))) ∧
    dirAtO (synchronize_folders md5 none repl).1 [] = dirAtO repl [] := by
  cases repl with
  | none =>
    have h0 : synchronize_folders md5 none none = (none, [], none) := rfl
    rw [h0]
    exact ⟨rfl, by simp, fun q => rfl, fun n q => by simp [dirAtO, hasFileBelowAtO], rfl⟩
  | some t =>
    have h0 : synchronize_folders md5 none (some t)
        = (some (sweepT [] t).1, (sweepT [] t).2, none) := rfl
    rw [h0]
    obtain ⟨s1, s2, s3, s4⟩ := sweepT_char t [] (by simpa [wfO] using hwf)
    exact ⟨rfl, s4, s1, s2, s3⟩

/-- Witness for **C10**: replica `{d/}` (one empty directory), source
missing: the call returns without error, removes `d`, and keeps the root. -/
theorem c10_missing_source_behavior_witness :
    wfO (some (FSTree.dir [("d", FSTree.dir [])])) = true ∧
    ((synchronize_folders (fun s => s) none (some (.dir [("d", .dir [])]))).2.2 = none ∧
     (∀ ev ∈ (synchronize_folders (fun s => s) none (some (.dir [("d", .dir [])]))).2.1,
        ∃ r, ev = Event.removeDir r) ∧
     (∀ q, fileAtO (synchronize_folders (fun s => s) none (some (.dir [("d", .dir [])]))).1 q
        = fileAtO (some (FSTree.dir [("d", FSTree.dir [])])) q) ∧
     (∀ n q, dirAtO (synchronize_folders (fun s => s) none (some (.dir [("d", .dir [])]))).1 (n :: q)
        = (dirAtO (some (FSTree.dir [("d", FSTree.dir [])])) (n :: q)
           && hasFileBelowAtO (some (FSTree.dir [("d", FSTree.dir [])])) (n :: q))) ∧
     dirAtO (synchronize_folders (fun s => s) none (some (.dir [("d", .dir [])]))).1 []
        = dirAtO (some (FSTree.dir [("d", FSTree.dir [])])) []) :=
  ⟨by simp [wfO, wfT, wfE],
   c10_missing_source_behavior (fun s => s) (some (.dir [("d", .dir [])]))
     (by simp [wfO, wfT, wfE])⟩

/-- **C2**: on the claim's own scenario — source `{dir/x.txt:"1"}`, replica
`{dir/x.txt:"1", dir/y.txt:"2", other/z.txt:"3"}` — the pass does *not*
remove the replica-only entries; the pruning loop passes the replica
subdirectory `dir` to `os.remove`, which raises `IsADirectoryError`, the pass
aborts with no event logged, and `dir/y.txt`, `other/z.txt` and `other` are
all still present. -/
theorem c2_replica_only_subtree_not_removed :
    synchronize_folders (fun s => s)
      (some (.dir [("dir", .dir [("x.txt", .file "1" 0)])]))
      (some (.dir [("dir", .dir [("x.txt", .file "1" 0), ("y.txt", .file "2" 0)]),
                   ("other", .dir [("z.txt", .file "3" 0)])]))
      = (some (.dir [("dir", .dir [("x.txt", .file "1" 0), ("y.txt", .file "2" 0)]),
                     ("other", .dir [("z.txt", .file "3" 0)])]),
         [], some (.isADirRemove ["dir"])) := by
  simp [synchronize_folders, downDir, downChildren, copyStep, pruneStep, sweepTop, sweepT,
    sweepE, filesOf, fileNames, findEntry, setEntry, firstFileName]

/-- **C3**: source `{d/}` (one empty directory), replica an existing empty
directory.  The pass completes successfully and returns the replica in
exactly its initial state, yet it logs a create-dir event (and a remove-dir
event): since the post-state equals the pre-state, an immediately following
second pass with unchanged source performs the same directory creation —
the second pass does not perform zero create/remove actions. -/
theorem c3_second_pass_emits_create :
    synchronize_folders (fun s => s) (some (.dir [("d", .dir [])])) (some (.dir []))
      = (some (.dir []), [Event.createDir ["d"], Event.removeDir ["d"]], none) ∧
    Event.createDir ["d"]
      ∈ (synchronize_folders (fun s => s) (some (.dir [("d", .dir [])])) (some (.dir []))).2.1 := by
  constructor <;>
    simp [synchronize_folders, downDir, downChildren, copyStep, pruneStep, sweepTop, sweepT,
      sweepE, filesOf, fileNames, findEntry, setEntry, firstFileName]

/-- **C4**: with source `{d/x.txt:"1"}` and replica `{d/}`, the pruning loop
of the downward pass passes the *directory* entry `d` of the replica root to
the file-removal operation `os.remove`, reaching the raise-on-directory
branch — the branch the claim says is unreachable. -/
theorem c4_prune_passes_directory :
    synchronize_folders (fun s => s)
      (some (.dir [("d", .dir [("x.txt", .file "1" 0)])]))
      (some (.dir [("d", .dir [])]))
      = (some (.dir [("d", .dir [])]), [], some (.isADirRemove ["d"])) := by
  simp [synchronize_folders, downDir, downChildren, copyStep, pruneStep, sweepTop, sweepT,
    sweepE, filesOf, fileNames, findEntry, setEntry, firstFileName]

/-- **C5**: source `{s.txt:"a", d/x.txt:"1"}`, replica `{d/, stale.txt:"z"}`.
The failure of `os.remove` on the single entry `d` aborts the whole pass:
the sibling `stale.txt` is never pruned (it is still present afterwards) and
`d/x.txt` is never copied — entry-level errors are not localized. -/
theorem c5_entry_error_aborts_pass :
    synchronize_folders (fun s => s)
      (some (.dir [("s.txt", .file "a" 0), ("d", .dir [("x.txt", .file "1" 0)])]))
      (some (.dir [("d", .dir []), ("stale.txt", .file "z" 0)]))
      = (some (.dir [("d", .dir []), ("stale.txt", .file "z" 0), ("s.txt", .file "a" 0)]),
         [Event.copyFile ["s.txt"]], some (.isADirRemove ["d"])) ∧
    fileAtO (synchronize_folders (fun s => s)
      (some (.dir [("s.txt", .file "a" 0), ("d", .dir [("x.txt", .file "1" 0)])]))
      (some (.dir [("d", .dir []), ("stale.txt", .file "z" 0)]))).1 ["stale.txt"]
      = some ("z", 0) := by
  constructor <;>
    simp [synchronize_folders, downDir, downChildren, copyStep, pruneStep, sweepTop, sweepT,
      sweepE, filesOf, fileNames, findEntry, setEntry, firstFileName, fileAtO, fileAt, lookup]

/-- **C6**: with a nonexistent source and replica `{d/}`, the call performs
no precondition check at all: it returns normally (no failure is reported)
and it *mutates* the replica, removing the empty directory `d` in the upward
sweep — instead of aborting before any traversal without touching the
replica. -/
theorem c6_no_precondition_check :
    synchronize_folders (fun s => s) none (some (.dir [("d", .dir [])]))
      = (some (.dir []), [Event.removeDir ["d"]], none) := by
  simp [synchronize_folders, sweepTop, sweepT, sweepE]
